import Mathlib

/-!
Verification of the MIDI byte-stream parser and the pianoroll converters of
`MIDOParser.py`.

The `Parser` class, the convenience entry points `parse_all` / `parse`, and the
pianoroll converters `notes2pianoroll` / `pianoroll2notes` are embedded from
the source file.  The `Tokenizer` class and `Message.from_bytes` are imported
by the source file from sibling modules that are not part of the repository
snapshot; they are modelled from the specification (sections 3, 4.1 and 6).

Bytes are modelled as `Nat` with an explicit `≤ 255` validity check at the
`feed` boundary (spec section 7: out-of-range values reject the whole call
atomically, before mutating state).
-/

namespace MIDO

/-- Modelled from the spec: the expected data-byte count of a status byte
(spec section 3, "message length depends on a status byte").  Channel-voice
kinds 0x80..0xBF and 0xE0..0xEF carry two data bytes, 0xC0..0xDF carry one;
system-common F1 carries one, F2 two, F3 one, F6 none; unknown/reserved
system bytes are treated as taking zero data bytes (spec section 4.1
edge-case policy). -/
def lenByStatus (s : Nat) : Nat :=
  if s < 0xC0 then 2
  else if s < 0xE0 then 1
  else if s < 0xF0 then 2
  else if s = 0xF1 then 1
  else if s = 0xF2 then 2
  else if s = 0xF3 then 1
  else 0

/-- Modelled from the spec: the protocol state of the Tokenizer (spec
section 9): the sysex-in-progress buffer, the currently-open message buffer
(explicit status byte plus accumulated data bytes), and the last
channel-voice status byte (running status). -/
structure TokCore where
  sysex : Option (List Nat)
  current : Option (Nat × List Nat)
  runningStatus : Option Nat
deriving Repr, DecidableEq

def TokCore.init : TokCore := ⟨none, none, none⟩

/-- Modelled from the spec: the per-byte algorithm of section 4.1.  Returns
the updated protocol state together with the tokens completed by this byte,
oldest first.
1. realtime bytes 0xF8..0xFF are emitted immediately and touch nothing;
2. 0xF0 begins a fresh sysex buffer (protocol resync discards any open
   message) and, being a system message, clears running status;
3. inside sysex every byte is appended, 0xF7 completes the token;
4. a status byte opens a new message, channel-voice bytes update running
   status while system bytes clear it; a status whose expected data count is
   zero is emitted at once;
5. a data byte extends the open message, or synthesizes one from running
   status; an orphan data byte is discarded; a message reaching its expected
   length is emitted, running status surviving. -/
def TokCore.step (c : TokCore) (b : Nat) : TokCore × List (List Nat) :=
  if 0xF8 ≤ b then (c, [[b]])
  else if b = 0xF0 then ({ sysex := some [b], current := none, runningStatus := none }, [])
  else match c.sysex with
  | some buf =>
    if b = 0xF7 then ({ c with sysex := none }, [buf ++ [b]])
    else ({ c with sysex := some (buf ++ [b]) }, [])
  | none =>
    if 0x80 ≤ b then
      let rs : Option Nat := if b < 0xF0 then some b else none
      if lenByStatus b = 0 then
        ({ c with current := none, runningStatus := rs }, [[b]])
      else
        ({ c with current := some (b, []), runningStatus := rs }, [])
    else match c.current with
    | some (s, ds) =>
      let ds' := ds ++ [b]
      if ds'.length = lenByStatus s then
        ({ c with current := none }, [s :: ds'])
      else
        ({ c with current := some (s, ds') }, [])
    | none => match c.runningStatus with
      | some s =>
        if lenByStatus s = 1 then ({ c with current := none }, [[s, b]])
        else ({ c with current := some (s, [b]) }, [])
      | none => (c, [])

/-- Runs `TokCore.step` over a byte list, concatenating the emitted tokens in
order. -/
def TokCore.run : TokCore → List Nat → TokCore × List (List Nat)
  | c, [] => (c, [])
  | c, b :: rest =>
    let s1 := c.step b
    let s2 := s1.1.run rest
    (s2.1, s1.2 ++ s2.2)

/-- Modelled from the spec: the Tokenizer object of section 4.1 — the
protocol state plus the internal ready-token list that iteration drains. -/
structure Tokenizer where
  ready : List (List Nat)
  core : TokCore
deriving Repr, DecidableEq

def Tokenizer.init : Tokenizer := ⟨[], TokCore.init⟩

/-- Processes one (already validated) byte: protocol state advances and the
newly completed tokens are appended to the ready list. -/
def Tokenizer.feedOne (t : Tokenizer) (b : Nat) : Tokenizer :=
  let s := t.core.step b
  ⟨t.ready ++ s.2, s.1⟩

/-- Modelled from the spec: `Tokenizer.feed` (section 4.1).  Out-of-range
values are a caller error; the whole call is rejected atomically before any
state is mutated (spec section 7, InvalidInput). -/
def Tokenizer.feed (t : Tokenizer) (data : List Nat) : Except Unit Tokenizer :=
  if data.all (fun b => b ≤ 255) then Except.ok (data.foldl Tokenizer.feedOne t)
  else Except.error ()

/-- Modelled from the spec: `Tokenizer.feed_byte`, the single-byte variant of
`feed` (section 4.1). -/
def Tokenizer.feed_byte (t : Tokenizer) (b : Nat) : Except Unit Tokenizer :=
  if b ≤ 255 then Except.ok (t.feedOne b)
  else Except.error ()

/-- Modelled from the spec: iterating a Tokenizer yields the tokens that
became ready since the last drain, each exactly once, and removes them from
the ready list (section 4.1, Iteration). -/
def Tokenizer.drain (t : Tokenizer) : List (List Nat) × Tokenizer :=
  (t.ready, { t with ready := [] })

/-- Modelled from the spec: the structured decoding of a token is owned by
the external decode collaborator and is opaque to this core beyond "one
token → one Message" (spec sections 3 and 6); a Message is therefore
represented by the token bytes it was decoded from. -/
structure Message where
  bytes : List Nat
deriving Repr, DecidableEq

/-- Modelled from the spec: the decode collaborator, `decode(token) ->
Message`, consumed as a pure function (spec section 6). -/
def Message.from_bytes (bs : List Nat) : Message := ⟨bs⟩

/-- The Parser class (source lines 11..72): an owned Tokenizer plus the
public queue `self.messages` of decoded messages. -/
structure Parser where
  messages : List Message
  tok : Tokenizer
deriving Repr, DecidableEq

/-- The state built by `Parser.__init__` before any data is fed: empty queue,
fresh Tokenizer. -/
def Parser.init : Parser := ⟨[], Tokenizer.init⟩

/-- `Parser._decode` (source lines 26..28): drain every ready token from the
owned tokenizer and append its decoded Message to the queue, in order. -/
def Parser.decodeReady (p : Parser) : Parser :=
  let d := p.tok.drain
  { messages := p.messages ++ d.1.map Message.from_bytes, tok := d.2 }

/-- `Parser.feed` (source lines 30..42): delegate to the owned tokenizer,
then decode all newly ready tokens into the queue. -/
def Parser.feed (p : Parser) (data : List Nat) : Except Unit Parser :=
  match p.tok.feed data with
  | Except.error e => Except.error e
  | Except.ok t => Except.ok (Parser.decodeReady { p with tok := t })

/-- `Parser.feed_byte` (source lines 44..49). -/
def Parser.feed_byte (p : Parser) (b : Nat) : Except Unit Parser :=
  match p.tok.feed_byte b with
  | Except.error e => Except.error e
  | Except.ok t => Except.ok (Parser.decodeReady { p with tok := t })

/-- Repeated `Parser.feed_byte` over a byte list, stopping at the first
error, as a caller streaming one byte at a time would do. -/
def Parser.feedBytes : Parser → List Nat → Except Unit Parser
  | p, [] => Except.ok p
  | p, b :: rest =>
    match p.feed_byte b with
    | Except.error e => Except.error e
    | Except.ok p1 => p1.feedBytes rest

/-- `Parser.__init__(data)` (source lines 18..24): fresh state, then feed
`data` when present (feeding the empty list is a no-op, so the `if data:`
guard of the source is absorbed). -/
def Parser.ofData (data : List Nat) : Except Unit Parser :=
  Parser.init.feed data

/-- `Parser.get_message` (source lines 51..61): taking the first element of
the popping iterator removes and returns the front message; on an empty
queue the loop body never runs and None is returned with the state
untouched. -/
def Parser.get_message (p : Parser) : Option Message × Parser :=
  match p.messages with
  | [] => (none, p)
  | m :: rest => (some m, { p with messages := rest })

/-- `Parser.pending` (source lines 63..65): the current queue length. -/
def Parser.pending (p : Parser) : Nat := p.messages.length

/-- At most `n` iterations of the `__iter__` loop (source lines 69..72):
repeatedly pop the front message until the queue is empty or the fuel runs
out, collecting the popped messages in order. -/
def Parser.popN : Parser → Nat → List Message × Parser
  | p, 0 => ([], p)
  | p, n + 1 =>
    match p.get_message with
    | (none, q) => ([], q)
    | (some m, q) =>
      let r := q.popN n
      (m :: r.1, r.2)

/-- `Parser.__iter__` run to exhaustion (source lines 69..72): the loop
`while len(messages) > 0: yield popleft()` pops at most `pending` times. -/
def Parser.drain (p : Parser) : List Message × Parser :=
  p.popN p.pending

/-- `parse_all` (source lines 75..82): `list(Parser(data))`. -/
def parse_all (data : List Nat) : Except Unit (List Message) :=
  match Parser.ofData data with
  | Except.error e => Except.error e
  | Except.ok p => Except.ok p.drain.1

/-- `parse` (source lines 85..90): `Parser(data).get_message()`. -/
def parse (data : List Nat) : Except Unit (Option Message) :=
  match Parser.ofData data with
  | Except.error e => Except.error e
  | Except.ok p => Except.ok p.get_message.1

/-- A miditoolkit note object: onset tick, offset tick, pitch and velocity.
The Python attribute `end` is a Lean keyword, spelt `end_` here. -/
structure Note where
  start : Int
  end_ : Int
  pitch : Int
  velocity : Int
deriving Repr, DecidableEq, Inhabited

/-- `np.arange(a, b)` over integers: `a, a+1, ..., b-1`, empty when `b ≤ a`. -/
def arangeInt (a b : Int) : List Int :=
  (List.range (b - a).toNat).map (fun i => a + (i : Int))

/-- The loop state of `notes2pianoroll` (source lines 138..165): the heap of
note objects (the copies may be mutated in place by the zero-duration
extension) together with the accumulated `time_coo`, `pitch_coo` and
`velocity` coordinate lists. -/
structure RollAcc where
  heap : List Note
  time_coo : List Int
  pitch_coo : List Int
  velocity : List Int
deriving Repr, DecidableEq

/-- One iteration of the `for note in note_stream` loop of `notes2pianoroll`
(source lines 142..165), acting on the note object at heap address `r`:
notes with velocity 0 are skipped outright; a zero-length note is extended
in place (`note.end += 1`) when `keep_note` is set; then the time, pitch and
velocity coordinates of the note's span are appended.  `binary_thres` maps
the stored velocity to the Python boolean `v > thres` (1 or 0). -/
def rollStep (binaryThres : Option Int) (keepNote : Bool) (acc : RollAcc) (r : Nat) : RollAcc :=
  let note := acc.heap.getD r default
  if note.velocity = 0 then acc
  else
    let d0 := note.end_ - note.start
    let duration := if keepNote = true ∧ d0 = 0 then 1 else d0
    let heap := if keepNote = true ∧ d0 = 0 then
        acc.heap.set r { note with end_ := note.end_ + 1 }
      else acc.heap
    let v := match binaryThres with
      | some thres => if thres < note.velocity then (1 : Int) else 0
      | none => note.velocity
    { heap := heap,
      time_coo := acc.time_coo ++ arangeInt note.start (note.start + duration),
      pitch_coo := acc.pitch_coo ++ List.replicate duration.toNat note.pitch,
      velocity := acc.velocity ++ List.replicate duration.toNat v }

/-- The whole coordinate-collection loop of `notes2pianoroll` (source lines
142..165), over the heap addresses of the sorted note copies. -/
def rollLoop (binaryThres : Option Int) (keepNote : Bool) (acc : RollAcc) (rs : List Nat) : RollAcc :=
  rs.foldl (rollStep binaryThres keepNote) acc

/-- The preparation phase of `notes2pianoroll` (source lines 120..135) over
an explicit heap of note objects, with the input stream given as a list of
heap addresses `refs`:
`deepcopy` allocates a fresh copy of each input note at addresses
`heap.length, heap.length+1, ...`; the copies are sorted by end time
(Python's stable `sorted`); `max_tick` defaults to the largest end time (0
when the stream is empty); when resampling is on, every copy's `start` and
`end` are overwritten in place and `max_tick` is resampled too.  The numeric
map `int(resample_method(x * resample_factor))` is abstracted as an
arbitrary function `resample : Int → Int`, and the `resample_factor != 1.0`
test as the flag `doResample`.  Returns the heap, the sorted copy addresses
and `max_tick`.  `resampleNote` is the body of the resampling loop: it
overwrites the note object at address `r` in place. -/
def resampleNote (resample : Int → Int) (h : List Note) (r : Nat) : List Note :=
  let n := h.getD r default
  h.set r { n with start := resample n.start, end_ := resample n.end_ }

def rollPrep (heap : List Note) (refs : List Nat) (maxTick : Option Int)
    (doResample : Bool) (resample : Int → Int) : List Note × List Nat × Int :=
  let base := heap.length
  let heap1 := heap ++ refs.map (fun r => heap.getD r default)
  let copyRefs := (List.range refs.length).map (fun i => base + i)
  let sortedRefs := copyRefs.mergeSort
    (fun a b => decide ((heap1.getD a default).end_ ≤ (heap1.getD b default).end_))
  let mt0 := match maxTick with
    | some m => m
    | none => match sortedRefs.getLast? with
      | none => 0
      | some r => (heap1.getD r default).end_
  if doResample = true then
    let heap2 := sortedRefs.foldl (resampleNote resample) heap1
    (heap2, sortedRefs, resample mt0)
  else
    (heap1, sortedRefs, mt0)

/-- The output of `notes2pianoroll`: the final heap, `max_tick` (the time
dimension of the matrix), and the three coordinate lists from which
`csc_matrix((velocity, (time_coo, pitch_coo)))` is built. -/
structure RollResult where
  heap : List Note
  max_tick : Int
  time_coo : List Int
  pitch_coo : List Int
  velocity : List Int
deriving Repr, DecidableEq

/-- `notes2pianoroll` (source lines 109..171) over an explicit heap of note
objects: deepcopy-sort-resample preparation followed by the
coordinate-collection loop. -/
def notes2pianoroll (heap : List Note) (refs : List Nat) (maxTick : Option Int)
    (doResample : Bool) (resample : Int → Int)
    (binaryThres : Option Int) (keepNote : Bool) : RollResult :=
  let prep := rollPrep heap refs maxTick doResample resample
  let a := rollLoop binaryThres keepNote ⟨prep.1, [], [], []⟩ prep.2.1
  ⟨a.heap, prep.2.2, a.time_coo, a.pitch_coo, a.velocity⟩

/-- Reference variant of `notes2pianoroll` following the claim's words: the
coordinate-collection loop runs only over the copies whose velocity is
non-zero, every velocity-0 note having been dropped before any coordinate is
recorded. -/
def notes2pianorollSkipZero (heap : List Note) (refs : List Nat) (maxTick : Option Int)
    (doResample : Bool) (resample : Int → Int)
    (binaryThres : Option Int) (keepNote : Bool) : RollResult :=
  let prep := rollPrep heap refs maxTick doResample resample
  let kept := prep.2.1.filter (fun r => decide (¬ (prep.1.getD r default).velocity = 0))
  let a := rollLoop binaryThres keepNote ⟨prep.1, [], [], []⟩ kept
  ⟨a.heap, prep.2.2, a.time_coo, a.pitch_coo, a.velocity⟩

/-- `pianoroll2notes` (source lines 174..200).  The pianoroll is a
time-major matrix of integer cells; `binarized`, `pad` and `diff` are
modelled pointwise: `padIndicator i p` is the 0/1 padded binarization, so an
onset at diff index `t` for pitch `p` means `padIndicator t p <
padIndicator (t+1) p` and an offset the reverse.  `np.nonzero` of the
transposed diff enumerates pitch-major, time-minor, giving the parallel
`pitches`/`note_ons` lists and the `note_offs` list that is indexed
positionally.  The numeric map `int(x * resample_factor)` is abstracted as
an arbitrary function `resample : Nat → Int`.  The built notes are finally
sorted by start time (Python's stable `sort`). -/
def pianoroll2notes (roll : List (List Int)) (resample : Nat → Int) : List Note :=
  let T := roll.length
  let width := (roll.headD []).length
  let cell := fun (t p : Nat) => (roll.getD t []).getD p 0
  let padIndicator := fun (i p : Nat) =>
    if 1 ≤ i ∧ i ≤ T ∧ 0 < cell (i - 1) p then (1 : Int) else 0
  let onsets := (List.range width).flatMap (fun p =>
    (((List.range (T + 1)).filter
      (fun t => decide (padIndicator t p < padIndicator (t + 1) p))).map
      (fun t => (p, t))))
  let offs := (List.range width).flatMap (fun p =>
    ((List.range (T + 1)).filter
      (fun t => decide (padIndicator (t + 1) p < padIndicator t p))))
  let notes := (List.range onsets.length).map (fun idx =>
    let pr := onsets.getD idx (0, 0)
    let st := pr.2
    let ed := offs.getD idx 0
    let velocity := max 0 (min 127 (cell st pr.1))
    { velocity := velocity, pitch := (pr.1 : Int),
      start := resample st, end_ := resample ed : Note })
  notes.mergeSort (fun a b => decide (a.start ≤ b.start))

/-! Lemmas about the tokenizer/parser pipeline. -/

theorem Tokenizer.foldl_feedOne (data : List Nat) (t : Tokenizer) :
    data.foldl Tokenizer.feedOne t =
      ⟨t.ready ++ (t.core.run data).2, (t.core.run data).1⟩ := by
  induction data generalizing t with
  | nil => simp [TokCore.run]
  | cons b rest ih =>
    simp only [List.foldl_cons, ih, TokCore.run, Tokenizer.feedOne]
    simp [List.append_assoc]

theorem Parser.feed_eq (p : Parser) (data : List Nat)
    (h : data.all (fun b => b ≤ 255) = true) :
    p.feed data = Except.ok
      ⟨p.messages ++ (p.tok.ready ++ (p.tok.core.run data).2).map Message.from_bytes,
       ⟨[], (p.tok.core.run data).1⟩⟩ := by
  simp [Parser.feed, Tokenizer.feed, h, Tokenizer.foldl_feedOne, Parser.decodeReady,
    Tokenizer.drain]

theorem Parser.feed_byte_eq_feed_single (p : Parser) (b : Nat) :
    p.feed_byte b = p.feed [b] := by
  by_cases hb : b ≤ 255
  · simp [Parser.feed_byte, Parser.feed, Tokenizer.feed_byte, Tokenizer.feed, hb,
      Tokenizer.feedOne]
  · simp [Parser.feed_byte, Parser.feed, Tokenizer.feed_byte, Tokenizer.feed, hb]

theorem Parser.feedBytes_eq_feed (data : List Nat) (p : Parser)
    (hready : p.tok.ready = []) (hdata : data.all (fun x => x ≤ 255) = true) :
    p.feedBytes data = p.feed data := by
  induction data generalizing p with
  | nil =>
    obtain ⟨msgs, rd, core⟩ := p
    simp only [Parser.tok] at hready
    subst hready
    simp [Parser.feedBytes, Parser.feed_eq, TokCore.run]
  | cons b rest ih =>
    simp only [List.all_cons, Bool.and_eq_true, decide_eq_true_eq] at hdata
    obtain ⟨hb, hrest⟩ := hdata
    have hstep : p.feed_byte b = Except.ok
        ⟨p.messages ++ (p.tok.core.step b).2.map Message.from_bytes,
         ⟨[], (p.tok.core.step b).1⟩⟩ := by
      simp [Parser.feed_byte, Tokenizer.feed_byte, hb, Parser.decodeReady,
        Tokenizer.drain, Tokenizer.feedOne, hready]
    rw [Parser.feedBytes, hstep]
    dsimp only
    rw [ih ⟨p.messages ++ List.map Message.from_bytes (p.tok.core.step b).2,
         ⟨[], (p.tok.core.step b).1⟩⟩ rfl hrest]
    rw [Parser.feed_eq _ _ hrest,
        Parser.feed_eq _ _ (by simp [List.all_cons, hb, hrest])]
    simp [TokCore.run, hready, List.append_assoc]

theorem Parser.popN_of_length_le (n : Nat) : ∀ (p : Parser), p.messages.length ≤ n →
    p.popN n = (p.messages, { p with messages := [] }) := by
  induction n with
  | zero =>
    intro p h
    obtain ⟨ms, tk⟩ := p
    simp only [Parser.messages] at h ⊢
    have : ms = [] := List.eq_nil_of_length_eq_zero (Nat.le_zero.mp h)
    subst this
    simp [Parser.popN]
  | succ n ih =>
    intro p h
    obtain ⟨ms, tk⟩ := p
    cases ms with
    | nil => simp [Parser.popN, Parser.get_message]
    | cons m rest =>
      simp only [Parser.messages, List.length_cons, Nat.succ_le_succ_iff] at h
      have hr := ih ⟨rest, tk⟩ h
      simp [Parser.popN, Parser.get_message, hr]

/-- C1: on every `feed` or `feed_byte` call, the parser delegates to the
owned tokenizer, drains every token that became ready there (the tokenizer
it keeps is the post-drain one), decodes each token into exactly one
Message, and appends the results to its queue in framing order. -/
theorem feed_drains_decodes_appends (p : Parser) (data : List Nat) (b : Nat)
    (hready : p.tok.ready = []) (hdata : data.all (fun x => x ≤ 255) = true)
    (hb : b ≤ 255) :
    (∃ t1, p.tok.feed data = Except.ok t1 ∧
      p.feed data = Except.ok
        ⟨p.messages ++ t1.ready.map Message.from_bytes, t1.drain.2⟩) ∧
    (∃ t2, p.tok.feed_byte b = Except.ok t2 ∧
      p.feed_byte b = Except.ok
        ⟨p.messages ++ t2.ready.map Message.from_bytes, t2.drain.2⟩) := by
  constructor
  · refine ⟨data.foldl Tokenizer.feedOne p.tok, ?_, ?_⟩
    · simp [Tokenizer.feed, hdata]
    · rw [Parser.feed_eq p data hdata, Tokenizer.foldl_feedOne]
      simp [Tokenizer.drain, hready]
  · refine ⟨p.tok.feedOne b, ?_, ?_⟩
    · simp [Tokenizer.feed_byte, hb]
    · simp [Parser.feed_byte, Tokenizer.feed_byte, hb, Parser.decodeReady,
        Tokenizer.drain, Tokenizer.feedOne, hready]

/-- C1 witness: a fresh parser fed a complete note-on message and a realtime
byte. -/
theorem feed_drains_decodes_appends_witness :
    (∃ t1, Parser.init.tok.feed [0x90, 60, 127] = Except.ok t1 ∧
      Parser.init.feed [0x90, 60, 127] = Except.ok
        ⟨Parser.init.messages ++ t1.ready.map Message.from_bytes, t1.drain.2⟩) ∧
    (∃ t2, Parser.init.tok.feed_byte 0xF8 = Except.ok t2 ∧
      Parser.init.feed_byte 0xF8 = Except.ok
        ⟨Parser.init.messages ++ t2.ready.map Message.from_bytes, t2.drain.2⟩) :=
  feed_drains_decodes_appends Parser.init [0x90, 60, 127] 0xF8 rfl (by decide)
    (by decide)

/-- C2: feeding `[0x90, 0xF8, 60, 127]` to a fresh parser yields exactly two
messages: the one-byte realtime message for 0xF8 first, then the note-on
message with its data bytes 60 and 127 intact. -/
theorem realtime_interleaving_example :
    (Parser.init.feed [0x90, 0xF8, 60, 127]).map Parser.messages =
      Except.ok [Message.from_bytes [0xF8], Message.from_bytes [0x90, 60, 127]] := by
  rfl

/-- C3: feeding any byte sequence one byte at a time through repeated
`feed_byte` is equivalent to a single `feed` of the whole sequence, and
`feed_byte b` itself equals `feed [b]`. -/
theorem feed_byte_at_a_time_equivalence (p : Parser) (data : List Nat)
    (hready : p.tok.ready = []) (hdata : data.all (fun x => x ≤ 255) = true) :
    p.feedBytes data = p.feed data ∧ ∀ b, p.feed_byte b = p.feed [b] :=
  ⟨Parser.feedBytes_eq_feed data p hready hdata,
   fun b => Parser.feed_byte_eq_feed_single p b⟩

/-- C3 witness: byte-at-a-time feeding of a running-status sequence on a
fresh parser. -/
theorem feed_byte_at_a_time_equivalence_witness :
    Parser.init.feedBytes [0x90, 60, 127, 61, 127] =
        Parser.init.feed [0x90, 60, 127, 61, 127] ∧
      ∀ b, Parser.init.feed_byte b = Parser.init.feed [b] :=
  feed_byte_at_a_time_equivalence Parser.init [0x90, 60, 127, 61, 127] rfl
    (by decide)

/-- C4: `get_message` pops and returns the front (oldest) message of a
non-empty queue, and on an empty queue returns none with the parser state
unchanged. -/
theorem get_message_pops_front_or_none (p : Parser) :
    (p.messages = [] → p.get_message = (none, p)) ∧
    (∀ m rest, p.messages = m :: rest →
      p.get_message = (some m, { p with messages := rest })) := by
  constructor
  · intro h
    simp [Parser.get_message, h]
  · intro m rest h
    simp [Parser.get_message, h]

/-- C4 witness: a fresh (empty-queue) parser returns none unchanged. -/
theorem get_message_pops_front_or_none_witness :
    Parser.init.get_message = (none, Parser.init) :=
  (get_message_pops_front_or_none Parser.init).1 rfl

/-- C5: iterating a parser yields its queued messages in FIFO order, each
exactly once (the iterator is the repeated-pop loop `popN pending`), and
leaves the queue empty; afterwards `pending` is 0 and a further pop returns
none without error; `pending` is the queue length, observed without
mutation. -/
theorem iterate_fifo_then_empty (p : Parser) :
    p.drain = (p.messages, { p with messages := [] }) ∧
    p.drain.2.pending = 0 ∧
    p.drain.2.get_message = (none, p.drain.2) ∧
    p.pending = p.messages.length := by
  have h := Parser.popN_of_length_le p.pending p (le_refl _)
  refine ⟨h, ?_, ?_, rfl⟩
  · rw [Parser.drain, h]
    simp [Parser.pending]
  · rw [Parser.drain, h]
    simp [Parser.get_message]

/-- C6: `parse_all` builds a fresh parser, feeds the whole buffer and
returns its fully drained message queue, in order — in particular the empty
list when no message was framed. -/
theorem parse_all_feeds_fresh_and_drains (data : List Nat) :
    parse_all data = (Parser.init.feed data).map (fun p => p.messages) := by
  unfold parse_all Parser.ofData
  cases h : Parser.init.feed data with
  | error e => simp [h, Except.map]
  | ok p =>
    have hd := Parser.popN_of_length_le p.pending p (le_refl _)
    simp [h, Parser.drain, hd, Except.map]

/-- C7: `parse` builds a fresh parser, feeds the whole buffer and returns
only the first framed message — none when there is no message — discarding
the rest of the queue. -/
theorem parse_returns_first_only (data : List Nat) :
    parse data = (Parser.init.feed data).map (fun p => p.messages.head?) := by
  unfold parse Parser.ofData
  cases h : Parser.init.feed data with
  | error e => simp [h, Except.map]
  | ok p =>
    obtain ⟨ms, tk⟩ := p
    cases ms with
    | nil => simp [h, Parser.get_message, Except.map]
    | cons m rest => simp [h, Parser.get_message, Except.map]

/-! Lemmas about the pianoroll converters. -/

theorem take_set_of_le {α : Type} (l : List α) (n i : Nat) (x : α) (h : n ≤ i) :
    (l.set i x).take n = l.take n := by
  rw [List.set_take, List.set_eq_of_length_le]
  exact le_trans (List.length_take_le n l) h

theorem mem_mergeSort_map_base (le : Nat → Nat → Bool) (k m r : Nat)
    (hr : r ∈ ((List.range m).map (fun i => k + i)).mergeSort le) : k ≤ r := by
  have hmem := List.mem_mergeSort.mp hr
  obtain ⟨i, _, rfl⟩ := List.mem_map.mp hmem
  exact Nat.le_add_right k i

theorem rollStep_heap_take (bt : Option Int) (kn : Bool) (acc : RollAcc) (r n : Nat)
    (h : n ≤ r) : ((rollStep bt kn acc r).heap).take n = acc.heap.take n := by
  unfold rollStep
  dsimp only
  split
  · rfl
  · dsimp only
    split
    · exact take_set_of_le _ _ _ _ h
    · rfl

theorem rollLoop_heap_take (bt : Option Int) (kn : Bool) (rs : List Nat) :
    ∀ (acc : RollAcc) (n : Nat), (∀ r ∈ rs, n ≤ r) →
    ((rollLoop bt kn acc rs).heap).take n = acc.heap.take n := by
  induction rs with
  | nil => intro acc n _; rfl
  | cons r rest ih =>
    intro acc n h
    have h1 : ((rollLoop bt kn (rollStep bt kn acc r) rest).heap).take n =
        ((rollStep bt kn acc r).heap).take n :=
      ih (rollStep bt kn acc r) n (fun x hx => h x (List.mem_cons_of_mem r hx))
    have h2 := rollStep_heap_take bt kn acc r n (h r (List.mem_cons_self r rest))
    simpa [rollLoop, List.foldl_cons] using h1.trans h2

theorem resampleNote_take (resample : Int → Int) (l : List Nat) :
    ∀ (h1 : List Note) (n : Nat), (∀ r ∈ l, n ≤ r) →
    (l.foldl (resampleNote resample) h1).take n = h1.take n := by
  induction l with
  | nil => intro h1 n _; rfl
  | cons r rest ih =>
    intro h1 n h
    have hstep : (resampleNote resample h1 r).take n = h1.take n := by
      unfold resampleNote
      exact take_set_of_le _ _ _ _ (h r (List.mem_cons_self r rest))
    have h2 := ih (resampleNote resample h1 r) n
      (fun x hx => h x (List.mem_cons_of_mem r hx))
    simpa [List.foldl_cons] using h2.trans hstep

theorem rollPrep_take (heap : List Note) (refs : List Nat) (maxTick : Option Int)
    (doResample : Bool) (resample : Int → Int) :
    ((rollPrep heap refs maxTick doResample resample).1).take heap.length = heap ∧
    (∀ r ∈ (rollPrep heap refs maxTick doResample resample).2.1, heap.length ≤ r) := by
  unfold rollPrep
  by_cases hd : doResample = true
  · simp only [hd, if_true]
    constructor
    · rw [resampleNote_take _ _ _ _ (fun r hr => mem_mergeSort_map_base _ _ _ _ hr)]
      exact List.take_left heap _
    · exact fun r hr => mem_mergeSort_map_base _ _ _ _ hr
  · simp only [hd, if_false]
    constructor
    · exact List.take_left heap _
    · exact fun r hr => mem_mergeSort_map_base _ _ _ _ hr

/-- C8: `notes2pianoroll` never mutates its input notes: the notes at the
original heap addresses are all unchanged after the call (the resampling and
zero-duration writes hit only the deepcopied objects). -/
theorem notes2pianoroll_never_mutates_input (heap : List Note) (refs : List Nat)
    (maxTick : Option Int) (doResample : Bool) (resample : Int → Int)
    (binaryThres : Option Int) (keepNote : Bool) :
    ((notes2pianoroll heap refs maxTick doResample resample binaryThres
      keepNote).heap).take heap.length = heap := by
  obtain ⟨h1, h2⟩ := rollPrep_take heap refs maxTick doResample resample
  unfold notes2pianoroll
  dsimp only
  rw [rollLoop_heap_take _ _ _ _ _ h2]
  exact h1

theorem getD_set_velocity (l : List Note) (r r' : Nat) (x : Note)
    (hx : x.velocity = (l.getD r default).velocity) :
    ((l.set r x).getD r' default).velocity = (l.getD r' default).velocity := by
  by_cases hrr : r' = r
  · subst hrr
    by_cases hr : r' < l.length
    · simp [List.getD_eq_getElem?_getD, List.getElem?_set_self hr, hx]
    · rw [List.set_eq_of_length_le (Nat.le_of_not_lt hr)]
  · have hne : r ≠ r' := fun h => hrr h.symm
    simp [List.getD_eq_getElem?_getD, List.getElem?_set_ne hne]

theorem rollStep_velocity_getD (bt : Option Int) (kn : Bool) (acc : RollAcc)
    (r r' : Nat) :
    (((rollStep bt kn acc r).heap).getD r' default).velocity =
      ((acc.heap.getD r' default)).velocity := by
  unfold rollStep
  dsimp only
  split
  · rfl
  · dsimp only
    split
    · exact getD_set_velocity _ _ _ _ rfl
    · rfl

theorem rollLoop_filter_velocity_zero (bt : Option Int) (kn : Bool)
    (h0 : List Note) (rs : List Nat) :
    ∀ (acc : RollAcc),
    (∀ x, ((acc.heap.getD x default)).velocity = ((h0.getD x default)).velocity) →
    rollLoop bt kn acc rs =
      rollLoop bt kn acc
        (rs.filter (fun r => decide (¬ (h0.getD r default).velocity = 0))) := by
  induction rs with
  | nil => intro acc _; rfl
  | cons r rest ih =>
    intro acc hinv
    by_cases hz : (h0.getD r default).velocity = 0
    · have hskip : rollStep bt kn acc r = acc := by
        unfold rollStep
        dsimp only
        rw [if_pos ((hinv r).trans hz)]
      have hp : decide (¬ (h0.getD r default).velocity = 0) = false := by
        rw [decide_eq_false_iff_not, Decidable.not_not]
        exact hz
      have hfil : (r :: rest).filter
          (fun x => decide (¬ (h0.getD x default).velocity = 0)) =
          rest.filter (fun x => decide (¬ (h0.getD x default).velocity = 0)) := by
        rw [List.filter_cons]
        rw [hp]
        rw [if_neg Bool.false_ne_true]
      rw [hfil]
      have := ih acc hinv
      simpa [rollLoop, List.foldl_cons, hskip] using this
    · have hp : decide (¬ (h0.getD r default).velocity = 0) = true :=
        decide_eq_true hz
      have hfil : (r :: rest).filter
          (fun x => decide (¬ (h0.getD x default).velocity = 0)) =
          r :: rest.filter (fun x => decide (¬ (h0.getD x default).velocity = 0)) := by
        rw [List.filter_cons]
        rw [hp]
        rw [if_pos rfl]
      rw [hfil]
      have hinv2 : ∀ x, (((rollStep bt kn acc r).heap.getD x default)).velocity =
          ((h0.getD x default)).velocity :=
        fun x => (rollStep_velocity_getD bt kn acc r x).trans (hinv x)
      have := ih (rollStep bt kn acc r) hinv2
      simpa [rollLoop, List.foldl_cons] using this

/-- C9: in `notes2pianoroll`, a note whose velocity is 0 contributes no
time, pitch or velocity coordinates to the output (and causes no heap
write): the function coincides with the variant that drops the velocity-0
copies before the coordinate loop, for every note stream and every
parameter setting. -/
theorem notes2pianoroll_skips_zero_velocity (heap : List Note) (refs : List Nat)
    (maxTick : Option Int) (doResample : Bool) (resample : Int → Int)
    (binaryThres : Option Int) (keepNote : Bool) :
    notes2pianoroll heap refs maxTick doResample resample binaryThres keepNote =
      notes2pianorollSkipZero heap refs maxTick doResample resample binaryThres
        keepNote := by
  unfold notes2pianoroll notes2pianorollSkipZero
  dsimp only
  rw [← rollLoop_filter_velocity_zero binaryThres keepNote
    (rollPrep heap refs maxTick doResample resample).1
    (rollPrep heap refs maxTick doResample resample).2.1
    ⟨(rollPrep heap refs maxTick doResample resample).1, [], [], []⟩
    (fun _ => rfl)]

/-- C10: every note returned by `pianoroll2notes` has its velocity clamped
into 0..127, and the returned list is sorted in non-decreasing order of note
start time, for every pianoroll and resample map. -/
theorem pianoroll2notes_clamped_and_sorted (roll : List (List Int))
    (resample : Nat → Int) :
    (∀ n ∈ pianoroll2notes roll resample, 0 ≤ n.velocity ∧ n.velocity ≤ 127) ∧
    (pianoroll2notes roll resample).Pairwise (fun a b => a.start ≤ b.start) := by
  constructor
  · intro n hn
    unfold pianoroll2notes at hn
    rw [List.mem_mergeSort] at hn
    obtain ⟨idx, _, rfl⟩ := List.mem_map.mp hn
    exact ⟨le_max_left 0 _, max_le (by norm_num) (min_le_left _ _)⟩
  · unfold pianoroll2notes
    have htrans : ∀ (a b c : Note), decide (a.start ≤ b.start) →
        decide (b.start ≤ c.start) → decide (a.start ≤ c.start) := by
      intro a b c hab hbc
      simp only [decide_eq_true_eq] at hab hbc ⊢
      exact le_trans hab hbc
    have htotal : ∀ (a b : Note),
        decide (a.start ≤ b.start) || decide (b.start ≤ a.start) := by
      intro a b
      simp only [Bool.or_eq_true, decide_eq_true_eq]
      exact le_total a.start b.start
    refine List.Pairwise.imp ?_ (List.sorted_mergeSort htrans htotal _)
    intro a b hab
    simpa using hab

/-- C10 witness: the single-cell pianoroll `[[5]]` yields one note with
velocity 5, inside the clamp range. -/
theorem pianoroll2notes_clamped_and_sorted_witness :
    0 ≤ (⟨0, 1, 0, 5⟩ : Note).velocity ∧ (⟨0, 1, 0, 5⟩ : Note).velocity ≤ 127 :=
  (pianoroll2notes_clamped_and_sorted [[5]] (fun t => (t : Int))).1
    ⟨0, 1, 0, 5⟩ (by
      unfold pianoroll2notes
      rw [List.mem_mergeSort]
      decide)

end MIDO
